import Mathlib

/-!
Verification of the Library Catalog Management System core
(`book.hpp`, `myvector.hpp`, `tree.hpp`) as a shallow embedding.

`Book` embeds the record value type, `MyVector` embeds the custom
growable array (logical contents plus capacity), `Node`/tree operations
embed the category tree with aggregate book counts.
-/

set_option maxHeartbeats 1000000

/-- Embedding of `class Book` (book.hpp): title, author, isbn strings and
an `int` publication year. -/
structure Book where
  title : String
  author : String
  isbn : String
  publication_year : Int
deriving DecidableEq, Repr

/-- Embedding of `Book::operator==` (book.hpp, lines 112-119): if either
side's isbn is empty compare (title, author, year); otherwise compare
isbns only. -/
def Book.beq (a b : Book) : Bool :=
  if a.isbn = "" ∨ b.isbn = "" then
    a.title = b.title ∧ a.author = b.author ∧
      a.publication_year = b.publication_year
  else
    a.isbn = b.isbn

/-! ## MyVector (myvector.hpp)

The C++ class stores a raw buffer `array`, a logical size `v_size` and a
capacity `v_capacity`.  The embedding keeps the logical contents (the
first `v_size` buffer slots, in order) as `data` and the capacity as
`v_capacity`; `v_size` is `data.length`.  Indices are `Int` because the
C++ interface takes `int` indices and explicitly tests `index < 0`.
Thrown `std::out_of_range` exceptions become `Except` errors, one
constructor per distinct throw site kind. -/

/-- Error kinds of the container, following the spec taxonomy: the
bounds-check throws in `at`/`insertAt`/`removeAt` are `indexOutOfRange`
(C++ message "Index (is) out of range"), the empty-pop throw in
`pop_back` is `underflow` (C++ message "Vector is empty"). -/
inductive VecError where
  | indexOutOfRange
  | underflow
deriving DecidableEq, Repr

/-- Embedding of `MyVector<T>`: logical contents plus capacity. -/
structure MyVector (α : Type) where
  data : List α
  v_capacity : Int
deriving Repr

namespace MyVector

/-- Default constructor: `v_size = 0`, `v_capacity = 2`. -/
def mkEmpty (α : Type) : MyVector α := ⟨[], 2⟩

/-- Embeds `MyVector::size` (returns `v_size`). -/
def size (v : MyVector α) : Int := v.data.length

/-- Embeds `MyVector::capacity`. -/
def capacity (v : MyVector α) : Int := v.v_capacity

/-- Embeds `MyVector::empty`. -/
def isEmpty (v : MyVector α) : Bool := v.data.length = 0

/-- Embeds `MyVector::clear`: reset the logical size, keep the buffer. -/
def clear (v : MyVector α) : MyVector α := ⟨[], v.v_capacity⟩

/-- Embeds `MyVector::reserve` (lines 213-235): no-op when
`newCapacity <= v_capacity`, otherwise a fresh buffer of exactly
`newCapacity` slots holding the same first `v_size` elements. -/
def reserve (v : MyVector α) (newCapacity : Int) : MyVector α :=
  if newCapacity ≤ v.v_capacity then v
  else ⟨v.data, newCapacity⟩

/-- Embeds `MyVector::at` (checked access, lines 261-283): throws
`out_of_range` when `index < 0 || index >= v_size`. -/
def atIdx (v : MyVector α) (index : Int) : Except VecError α :=
  if h : index < 0 ∨ (v.data.length : Int) ≤ index then
    .error .indexOutOfRange
  else
    .ok (v.data.get ⟨index.toNat, by omega⟩)

/-- Embeds `MyVector::push_back` (lines 290-300): grow by doubling when full,
then write at slot `v_size` and increment the size. -/
def push_back (v : MyVector α) (value : α) : MyVector α :=
  let v1 := if (v.data.length : Int) = v.v_capacity
              then v.reserve (v.v_capacity * 2) else v
  ⟨v1.data ++ [value], v1.v_capacity⟩

/-- Embeds `MyVector::insertAt` (lines 308-330): valid indices `0..v_size`;
grows when full; shifts `[index, v_size)` one slot right and writes
`value` at `index`. -/
def insertAt (v : MyVector α) (index : Int) (value : α) :
    Except VecError (MyVector α) :=
  if index < 0 ∨ (v.data.length : Int) < index then
    .error .indexOutOfRange
  else
    let v1 := if (v.data.length : Int) = v.v_capacity
                then v.reserve (v.v_capacity * 2) else v
    .ok ⟨v1.data.take index.toNat ++ value :: v1.data.drop index.toNat,
         v1.v_capacity⟩

/-- Embeds `MyVector::removeAt` (lines 337-351): valid indices `0..v_size-1`;
shifts `[index+1, v_size)` one slot left and decrements the size. -/
def removeAt (v : MyVector α) (index : Int) :
    Except VecError (MyVector α) :=
  if index < 0 ∨ (v.data.length : Int) ≤ index then
    .error .indexOutOfRange
  else
    .ok ⟨v.data.eraseIdx index.toNat, v.v_capacity⟩

/-- Embeds `MyVector::pop_back` (lines 357-365): throws when empty, otherwise
only decrements the logical size. -/
def pop_back (v : MyVector α) : Except VecError (MyVector α) :=
  if v.data.length = 0 then .error .underflow
  else .ok ⟨v.data.dropLast, v.v_capacity⟩

/-- Embeds `MyVector::indexOf` (lines 372-380): first index holding an element
equal to `value`, `-1` when absent. -/
def indexOf [BEq α] (v : MyVector α) (value : α) : Int :=
  match v.data.findIdx? (fun x => x == value) with
  | some i => (i : Int)
  | none => -1

end MyVector

/-! ## The category tree (tree.hpp)

A `Node` holds a name, its child nodes, its locally stored books, and
the aggregate `bookCount` (`unsigned int` in the source; the maintained
invariant keeps every `-=` in range, so it is embedded as `Nat`).  The
C++ code mutates a node reached through a pointer and then walks the
`parent` chain adjusting `bookCount`; the embedding addresses the node
by the list of child names leading to it and adds the same delta at
every level of the recursion, which visits exactly the ancestors. -/
inductive Node where
  | mk (name : String) (children : List Node) (books : List Book)
       (bookCount : Nat) : Node
deriving Repr

/-- Embeds `Node::getName`. -/
def Node.name : Node → String
  | .mk nm _ _ _ => nm

/-- The `children` vector of a node. -/
def Node.children : Node → List Node
  | .mk _ cs _ _ => cs

/-- The `books` vector of a node. -/
def Node.books : Node → List Book
  | .mk _ _ bs _ => bs

/-- Embeds `Node::getBookCount`. -/
def Node.bookCount : Node → Nat
  | .mk _ _ _ bc => bc

/-- Embeds `Node::findChildByName` (tree.hpp, lines 175-180): first immediate
child with the given name. -/
def findNamed (cs : List Node) (childName : String) : Option Node :=
  match cs with
  | [] => none
  | c :: rest => if c.name = childName then some c else findNamed rest childName

mutual

/-- Independent recursive count of the books reachable in a subtree:
local books plus all descendants' books. -/
def Node.countBooks : Node → Nat
  | .mk _ cs bs _ => bs.length + countBooksL cs

/-- Sum of `countBooks` over a list of subtrees. -/
def countBooksL : List Node → Nat
  | [] => 0
  | c :: cs => c.countBooks + countBooksL cs

end

mutual

/-- Aggregate-count invariant checker: every node's stored `bookCount`
equals the independent recursive count of its subtree. -/
def Node.countOk : Node → Bool
  | .mk nm cs bs bc => (bc = Node.countBooks (.mk nm cs bs bc)) && countOkL cs

/-- Embeds `Node.countOk` on every subtree in a list. -/
def countOkL : List Node → Bool
  | [] => true
  | c :: cs => c.countOk && countOkL cs

end

mutual

/-- Sibling-name uniqueness invariant: no two children of any node in
the subtree share a name. -/
def Node.uniqueNames : Node → Bool
  | .mk _ cs _ _ => uniqueL cs

/-- Embeds `uniqueL cs`: the names in `cs` are pairwise distinct and every
subtree in `cs` satisfies `Node.uniqueNames`. -/
def uniqueL : List Node → Bool
  | [] => true
  | c :: cs => cs.all (fun d => d.name ≠ c.name) && c.uniqueNames && uniqueL cs

end

/-- Number of children carrying a given name. -/
def countNamed (cs : List Node) (s : String) : Nat :=
  cs.countP (fun c => c.name = s)

/-- Embeds `Node::addBook` (tree.hpp, lines 226-243) restricted to the node
itself: reject when an equal book (by `Book.beq`) is already among this
node's own books, otherwise append and increment this node's count.
The `+1` on every ancestor is performed by the path wrapper
`Node.addBookAt`. -/
def Node.addBook (n : Node) (book : Book) : Node × Bool :=
  match n with
  | .mk nm cs bs bc =>
    if bs.any (fun x => Book.beq x book) then (.mk nm cs bs bc, false)
    else (.mk nm cs (bs ++ [book]) (bc + 1), true)

/-- Embeds `Node::removeBookByTitle` (tree.hpp, lines 246-269) restricted to
the node itself: delete the first local book with the given title and
decrement this node's count; ancestors are handled by
`Node.removeBookAt`. -/
def Node.removeBookByTitle (n : Node) (title : String) : Node × Bool :=
  match n with
  | .mk nm cs bs bc =>
    match bs.findIdx? (fun x => x.title = title) with
    | none => (.mk nm cs bs bc, false)
    | some i => (.mk nm cs (bs.eraseIdx i) (bc - 1), true)

/-- Helper for `Node::removeChildByName`: drop the first child with the
given name from the list, returning that child's stored `bookCount` as
the delta to subtract. -/
def removeNamed (cs : List Node) (childName : String) : List Node × Option Nat :=
  match cs with
  | [] => ([], none)
  | c :: rest =>
    if c.name = childName then (rest, some c.bookCount)
    else
      let r := removeNamed rest childName
      (c :: r.1, r.2)

/-- Embeds `Node::removeChildByName` (tree.hpp, lines 196-223) restricted to
the node itself: delete the first child with the given name and
subtract its stored `bookCount` from this node's count; ancestors are
handled by `Node.removeChildAt`. -/
def Node.removeChildByName (n : Node) (childName : String) : Node × Option Nat :=
  match n with
  | .mk nm cs bs bc =>
    let r := removeNamed cs childName
    match r.2 with
    | none => (.mk nm cs bs bc, none)
    | some delta => (.mk nm r.1 bs (bc - delta), some delta)

/-- Embeds `Node::addChild` (tree.hpp, lines 183-193): return the existing
child with that name when present, otherwise append a fresh child.
The pair is (updated parent, returned child). -/
def Node.addChild (n : Node) (childName : String) : Node × Node :=
  match findNamed n.children childName with
  | some c => (n, c)
  | none =>
    let child : Node := .mk childName [] [] 0
    (.mk n.name (n.children ++ [child]) n.books n.bookCount, child)

mutual

/-- Embeds `Node::addBook` invoked on the node addressed by `path` (a list of
child names): the `+1` performed at each recursion level on success is
exactly the C++ walk up the `parent` chain. -/
def Node.addBookAt : Node → List String → Book → Node × Bool
  | n, [], book => n.addBook book
  | .mk nm cs bs bc, s :: rest, book =>
    let r := addBookChildren cs s rest book
    if r.2 then (.mk nm r.1 bs (bc + 1), true)
    else (.mk nm r.1 bs bc, false)
  termination_by n p _ => (p.length, sizeOf n)

/-- Descend into the first child named `s` (as `findChildByName` does)
and apply `Node.addBookAt` there. -/
def addBookChildren : List Node → String → List String → Book → List Node × Bool
  | [], _, _, _ => ([], false)
  | c :: cs, s, rest, book =>
    if c.name = s then
      let r := c.addBookAt rest book
      (r.1 :: cs, r.2)
    else
      let r := addBookChildren cs s rest book
      (c :: r.1, r.2)
  termination_by cs _ rest _ => (rest.length, sizeOf cs)

end

mutual

/-- Embeds `Node::removeBookByTitle` invoked on the node addressed by `path`;
the `-1` at each level on success is the C++ ancestor walk. -/
def Node.removeBookAt : Node → List String → String → Node × Bool
  | n, [], title => n.removeBookByTitle title
  | .mk nm cs bs bc, s :: rest, title =>
    let r := removeBookChildren cs s rest title
    if r.2 then (.mk nm r.1 bs (bc - 1), true)
    else (.mk nm r.1 bs bc, false)
  termination_by n p _ => (p.length, sizeOf n)

/-- Descend into the first child named `s` and apply
`Node.removeBookAt` there. -/
def removeBookChildren : List Node → String → List String → String → List Node × Bool
  | [], _, _, _ => ([], false)
  | c :: cs, s, rest, title =>
    if c.name = s then
      let r := c.removeBookAt rest title
      (r.1 :: cs, r.2)
    else
      let r := removeBookChildren cs s rest title
      (c :: r.1, r.2)
  termination_by cs _ rest _ => (rest.length, sizeOf cs)

end

mutual

/-- Embeds `Node::removeChildByName` invoked on the node addressed by `path`;
subtracting the delta at each level on success is the C++ ancestor
walk. -/
def Node.removeChildAt : Node → List String → String → Node × Option Nat
  | n, [], childName => n.removeChildByName childName
  | .mk nm cs bs bc, s :: rest, childName =>
    let r := removeChildChildren cs s rest childName
    match r.2 with
    | some delta => (.mk nm r.1 bs (bc - delta), some delta)
    | none => (.mk nm r.1 bs bc, none)
  termination_by n p _ => (p.length, sizeOf n)

/-- Descend into the first child named `s` and apply
`Node.removeChildAt` there. -/
def removeChildChildren : List Node → String → List String → String → List Node × Option Nat
  | [], _, _, _ => ([], none)
  | c :: cs, s, rest, childName =>
    if c.name = s then
      let r := c.removeChildAt rest childName
      (r.1 :: cs, r.2)
    else
      let r := removeChildChildren cs s rest childName
      (c :: r.1, r.2)
  termination_by cs _ rest _ => (rest.length, sizeOf cs)

end

mutual

/-- The segment walk of `Tree::createNode` (tree.hpp, lines 390-404):
`cur = cur->addChild(parts[i])` for each segment.  The pair is
(updated subtree, the node the C++ code finally returns). -/
def Node.createPath : Node → List String → Node × Node
  | n, [] => (n, n)
  | .mk nm cs bs bc, s :: rest =>
    let r := createChildren cs s rest
    (.mk nm r.1 bs bc, r.2)
  termination_by n p => (2 * p.length, sizeOf n)

/-- Embeds `addChild` step of `createNode` on the child list: descend into the
first child named `s`, appending a fresh node when none exists. -/
def createChildren : List Node → String → List String → List Node × Node
  | [], s, rest =>
    let r := Node.createPath (.mk s [] [] 0) rest
    ([r.1], r.2)
  | c :: cs, s, rest =>
    if c.name = s then
      let r := c.createPath rest
      (r.1 :: cs, r.2)
    else
      let r := createChildren cs s rest
      (c :: r.1, r.2)
  termination_by cs _ rest => (2 * rest.length + 1, sizeOf cs)

end

/-- The segment walk of `Tree::getNode` (tree.hpp, lines 370-387):
follow `findChildByName` per segment, `none` as soon as one is
missing. -/
def getNodeParts : List String → Node → Option Node
  | [], n => some n
  | s :: rest, n =>
    match findNamed n.children s with
    | none => none
    | some c => getNodeParts rest c

/-- The character loop of `Tree::splitPath` (tree.hpp, lines 349-367):
`cur` accumulates the current segment, a `/` flushes it when
nonempty. -/
def splitGo : List Char → List Char → List String
  | [], cur => if cur.isEmpty then [] else [⟨cur⟩]
  | c :: rest, cur =>
    if c = '/' then
      if cur.isEmpty then splitGo rest [] else ⟨cur⟩ :: splitGo rest []
    else splitGo rest (cur ++ [c])

/-- Embeds `Tree::splitPath`: split on `/`, discarding empty segments. -/
def splitPath (path : String) : List String := splitGo path.data []

/-- The parent-path string built by the loop in `Tree::removeNode`
(tree.hpp, lines 425-429): segments joined by `/`, no leading
separator. -/
def joinPath : List String → String
  | [] => ""
  | [s] => s
  | s :: rest => s ++ "/" ++ joinPath rest

/-- Split a nonempty segment list `p :: ps` into (all but last, last),
as `Tree::removeNode` computes `parts[0..size-2]` and
`parts[size-1]`. -/
def splitLastAux : String → List String → List String × String
  | s, [] => ([], s)
  | s, t :: ts =>
    let r := splitLastAux t ts
    (s :: r.1, r.2)

/-- Embedding of `class Tree`: the owned root node (never null after
construction in the embedding, matching `Tree(rootName)`). -/
structure CatTree where
  root : Node
deriving Repr

/-- Embeds `Tree::Tree(rootName)` (tree.hpp, lines 329-331): fresh root with
no children, no books, count 0. -/
def CatTree.new (rootName : String) : CatTree := ⟨.mk rootName [] [] 0⟩

/-- Embeds `Tree::getNode` (tree.hpp, lines 370-387): empty path or "/" is the
root, otherwise walk the split segments. -/
def CatTree.getNode (t : CatTree) (path : String) : Option Node :=
  if path = "" then some t.root
  else if path = "/" then some t.root
  else getNodeParts (splitPath path) t.root

/-- Embeds `Tree::createNode` (tree.hpp, lines 390-404): like `getNode` but
creating missing segments; returns (updated tree, returned node). -/
def CatTree.createNode (t : CatTree) (path : String) : CatTree × Node :=
  if path = "" ∨ path = "/" then (t, t.root)
  else
    let r := t.root.createPath (splitPath path)
    (⟨r.1⟩, r.2)

/-- Embeds `Tree::addBookAt` (tree.hpp, lines 509-514): `createNode(path)`
then `Node::addBook` on the node it returned (the node addressed by
the split path in the updated tree). -/
def CatTree.addBookAt (t : CatTree) (categoryPath : String) (book : Book) : CatTree × Bool :=
  let t1 := (t.createNode categoryPath).1
  let r := t1.root.addBookAt (splitPath categoryPath) book
  (⟨r.1⟩, r.2)

/-- Embeds `Tree::removeNode` (tree.hpp, lines 411-442): refuse empty/root
paths, resolve the parent (all segments but the last, rebuilt as a
string and re-split by `getNode`), then delegate to the parent's
`removeChildByName` for the last segment. -/
def CatTree.removeNode (t : CatTree) (path : String) : CatTree × Bool :=
  if path = "" ∨ path = "/" then (t, false)
  else
    match splitPath path with
    | [] => (t, false)
    | p :: ps =>
      let r := splitLastAux p ps
      let parentPath := joinPath r.1
      let parentOpt : Option Node :=
        if parentPath = "" then some t.root else t.getNode parentPath
      match parentOpt with
      | none => (t, false)
      | some _ =>
        let rem := Node.removeChildAt t.root (splitPath parentPath) r.2
        (⟨rem.1⟩, rem.2.isSome)

/-- One catalog mutation of the kinds claim C1 quantifies over.  The
node-level operations address their target node by the list of child
names leading to it from the root. -/
inductive CatOp where
  | addBook (path : List String) (b : Book)
  | removeChild (path : List String) (childName : String)
  | removeBook (path : List String) (title : String)
  | createNode (path : String)

/-- Apply one `CatOp` to a tree. -/
def CatTree.applyOp (t : CatTree) : CatOp → CatTree
  | .addBook p b => ⟨(t.root.addBookAt p b).1⟩
  | .removeChild p c => ⟨(t.root.removeChildAt p c).1⟩
  | .removeBook p ttl => ⟨(t.root.removeBookAt p ttl).1⟩
  | .createNode p => (t.createNode p).1

/-- Apply a sequence of catalog mutations in order. -/
def CatTree.applyOps (t : CatTree) (ops : List CatOp) : CatTree :=
  ops.foldl CatTree.applyOp t

/-! ## MyVector refinement against a reference list model -/

/-- One container operation of the kinds claim C6 quantifies over. -/
inductive VOp (α : Type) where
  | push (x : α)
  | insertAt (i : Int) (x : α)
  | removeAt (i : Int)
  | pop

/-- One `VOp` on the real container; bounds violations abort. -/
def stepVec (v : MyVector α) : VOp α → Except VecError (MyVector α)
  | .push x => .ok (v.push_back x)
  | .insertAt i x => v.insertAt i x
  | .removeAt i => v.removeAt i
  | .pop => v.pop_back

/-- Run a sequence of operations on the container; the first thrown
error aborts the run, as an uncaught C++ exception would. -/
def runVec : List (VOp α) → MyVector α → Except VecError (MyVector α)
  | [], v => .ok v
  | op :: ops, v =>
    match stepVec v op with
    | .error e => .error e
    | .ok v' => runVec ops v'

/-- Modelled from the spec: the reference list simulation of §8
("DynamicArray round-trip").  `push` appends, `insertAt i` requires
`0 ≤ i ≤ length` and inserts at position `i`, `removeAt i` requires
`0 ≤ i < length` and removes position `i`, `pop` requires a nonempty
list and drops the last element; `none` signals a violated
precondition. -/
def refStep (l : List α) : VOp α → Option (List α)
  | .push x => some (l ++ [x])
  | .insertAt i x =>
    if 0 ≤ i ∧ i ≤ (l.length : Int) then some (l.insertIdx i.toNat x) else none
  | .removeAt i =>
    if 0 ≤ i ∧ i < (l.length : Int) then some (l.eraseIdx i.toNat) else none
  | .pop => if l.isEmpty then none else some l.dropLast

/-- Run the reference simulation; `none` as soon as a precondition
fails (the sequences claim C6 quantifies over never hit it). -/
def runRef : List (VOp α) → List α → Option (List α)
  | [], l => some l
  | op :: ops, l =>
    match refStep l op with
    | none => none
    | some l' => runRef ops l'

theorem insertIdx_eq_take_cons_drop (l : List α) (i : Nat) (x : α)
    (h : i ≤ l.length) : l.insertIdx i x = l.take i ++ x :: l.drop i := by
  induction l generalizing i with
  | nil => simp_all
  | cons a l ih =>
    cases i with
    | zero => simp [List.insertIdx_zero]
    | succ n => simp_all [List.insertIdx_succ_cons]

theorem stepVec_refines (v : MyVector α) (l l' : List α) (op : VOp α)
    (hd : v.data = l) (hr : refStep l op = some l') :
    ∃ w, stepVec v op = .ok w ∧ w.data = l' := by
  cases op with
  | push x =>
    refine ⟨v.push_back x, rfl, ?_⟩
    simp only [refStep, Option.some.injEq] at hr
    simp only [MyVector.push_back, MyVector.reserve]
    subst hd hr
    by_cases h1 : (v.data.length : Int) = v.v_capacity <;> simp [h1] <;>
      by_cases h2 : v.v_capacity * 2 ≤ v.v_capacity <;> simp [h2]
  | insertAt i x =>
    simp only [refStep] at hr
    split at hr
    case isFalse => exact absurd hr (by simp)
    case isTrue h =>
      simp only [Option.some.injEq] at hr
      simp only [stepVec, MyVector.insertAt, hd]
      rw [if_neg (by omega)]
      refine ⟨_, rfl, ?_⟩
      show (_ : List α) ++ _ = l'
      subst hr
      simp only [MyVector.reserve]
      rw [insertIdx_eq_take_cons_drop l i.toNat x (by omega)]
      by_cases h1 : (l.length : Int) = v.v_capacity <;> simp [h1, hd] <;>
        by_cases h2 : v.v_capacity * 2 ≤ v.v_capacity <;> simp [h2, hd]
  | removeAt i =>
    simp only [refStep] at hr
    split at hr
    case isFalse => exact absurd hr (by simp)
    case isTrue h =>
      simp only [Option.some.injEq] at hr
      simp only [stepVec, MyVector.removeAt, hd]
      rw [if_neg (by omega)]
      exact ⟨_, rfl, hr⟩
  | pop =>
    simp only [refStep] at hr
    split at hr
    case isTrue => exact absurd hr (by simp)
    case isFalse h =>
      simp only [Option.some.injEq] at hr
      simp only [stepVec, MyVector.pop_back, hd]
      rw [if_neg (by simp_all [List.isEmpty_iff])]
      exact ⟨_, rfl, hr⟩

theorem runVec_refines (ops : List (VOp α)) (v : MyVector α) (l l' : List α)
    (hd : v.data = l) (hr : runRef ops l = some l') :
    ∃ w, runVec ops v = .ok w ∧ w.data = l' := by
  induction ops generalizing v l with
  | nil =>
    simp only [runRef, Option.some.injEq] at hr
    exact ⟨v, rfl, hd.trans hr⟩
  | cons op ops ih =>
    simp only [runRef] at hr
    split at hr
    case h_1 => exact absurd hr (by simp)
    case h_2 lmid heq =>
      obtain ⟨w, hw, hwd⟩ := stepVec_refines v l lmid op hd heq
      obtain ⟨u, hu, hud⟩ := ih w lmid hwd hr
      exact ⟨u, by simp [runVec, hw, hu], hud⟩

theorem atIdx_ok (v : MyVector α) (i : Int)
    (h : ¬(i < 0 ∨ (v.data.length : Int) ≤ i)) :
    ∃ x, v.atIdx i = .ok x ∧ v.data.get? i.toNat = some x := by
  have hlt : i.toNat < v.data.length := by omega
  refine ⟨v.data.get ⟨i.toNat, hlt⟩, ?_, List.get?_eq_get hlt⟩
  simp only [MyVector.atIdx]
  rw [dif_neg h]

/-- C6: `MyVector` refines the reference list model: for every sequence
of push_back/insertAt/removeAt/pop_back operations whose indices
satisfy the stated preconditions (the reference simulation succeeds),
the run on the container from a fresh vector succeeds, `size()` equals
the reference list's length, and `at(i)` returns the reference list's
element for every valid index `i`. -/
theorem C6_myvector_refines_list (α : Type) (ops : List (VOp α)) (l : List α)
    (hr : runRef ops [] = some l) :
    ∃ w, runVec ops (MyVector.mkEmpty α) = .ok w ∧
      w.size = (l.length : Int) ∧
      ∀ i : Int, 0 ≤ i → i < (l.length : Int) →
        ∃ x, w.atIdx i = .ok x ∧ l.get? i.toNat = some x := by
  obtain ⟨w, hw, hwd⟩ := runVec_refines ops (MyVector.mkEmpty α) [] l rfl hr
  have hl : w.data.length = l.length := by rw [hwd]
  refine ⟨w, hw, by simp [MyVector.size, hl], ?_⟩
  intro i h0 h1
  obtain ⟨x, hx1, hx2⟩ := atIdx_ok w i (by omega)
  exact ⟨x, hx1, by rw [← hwd]; exact hx2⟩

/-- Witness for C6: a concrete valid sequence. -/
theorem C6_witness :
    ∃ w, runVec [VOp.push 10, VOp.push 20, VOp.insertAt 0 5,
                 VOp.removeAt 1, VOp.pop] (MyVector.mkEmpty Nat) = .ok w ∧
      w.size = (([5] : List Nat).length : Int) ∧
      ∀ i : Int, 0 ≤ i → i < (([5] : List Nat).length : Int) →
        ∃ x, w.atIdx i = .ok x ∧ ([5] : List Nat).get? i.toNat = some x :=
  C6_myvector_refines_list Nat _ [5] (by decide)

/-- C7: `reserve(n)` is a no-op when `n <= capacity`; when
`n > capacity` the capacity becomes exactly `n` while the size and the
stored elements (in order) are unchanged. -/
theorem C7_reserve_spec (α : Type) (v : MyVector α) (n : Int) :
    (n ≤ v.capacity → v.reserve n = v) ∧
    (v.capacity < n →
      (v.reserve n).capacity = n ∧ (v.reserve n).size = v.size ∧
        (v.reserve n).data = v.data) := by
  constructor
  · intro h
    simp only [MyVector.capacity] at h
    simp [MyVector.reserve, if_pos h]
  · intro h
    simp only [MyVector.capacity] at h
    have hn : ¬ n ≤ v.v_capacity := by omega
    simp [MyVector.reserve, hn, MyVector.capacity, MyVector.size]

/-- Witness for C7 at a concrete vector, in both regimes. -/
theorem C7_witness :
    ((⟨[1, 2], 2⟩ : MyVector Nat).reserve 1 = ⟨[1, 2], 2⟩) ∧
    ((⟨[1, 2], 2⟩ : MyVector Nat).reserve 5).capacity = 5 ∧
    ((⟨[1, 2], 2⟩ : MyVector Nat).reserve 5).data = [1, 2] :=
  ⟨(C7_reserve_spec Nat ⟨[1, 2], 2⟩ 1).1 (by decide),
   ((C7_reserve_spec Nat ⟨[1, 2], 2⟩ 5).2 (by decide)).1,
   ((C7_reserve_spec Nat ⟨[1, 2], 2⟩ 5).2 (by decide)).2.2⟩

/-- C8: `at(i)` fails with IndexOutOfRange exactly when `i < 0` or
`i >= length`, otherwise returning the element at `i`; `pop_back()`
fails with Underflow exactly when the vector is empty, otherwise only
decrementing the length (the removed value is neither returned nor
released: the remaining contents are `dropLast` of the old contents,
capacity unchanged). -/
theorem C8_checked_ops (α : Type) (v : MyVector α) (i : Int) :
    (v.atIdx i = .error .indexOutOfRange ↔ i < 0 ∨ v.size ≤ i) ∧
    (¬(i < 0 ∨ v.size ≤ i) →
      ∃ x, v.atIdx i = .ok x ∧ v.data.get? i.toNat = some x) ∧
    (v.pop_back = .error .underflow ↔ v.size = 0) ∧
    (v.size ≠ 0 →
      ∃ w, v.pop_back = .ok w ∧ w.data = v.data.dropLast ∧
        w.capacity = v.capacity ∧ w.size = v.size - 1) := by
  refine ⟨?_, ?_, ?_, ?_⟩
  · simp only [MyVector.atIdx, MyVector.size]
    by_cases h : i < 0 ∨ (v.data.length : Int) ≤ i <;> simp [h]
  · intro h
    simp only [MyVector.size] at h
    exact atIdx_ok v i h
  · simp only [MyVector.pop_back, MyVector.size]
    by_cases h : v.data.length = 0 <;> simp [h]
  · intro h
    simp only [MyVector.size] at h
    have h0 : ¬ v.data.length = 0 := by omega
    simp only [MyVector.pop_back, if_neg h0]
    refine ⟨_, rfl, rfl, rfl, ?_⟩
    simp only [MyVector.size, List.length_dropLast]
    omega

/-- Witness for C8 at a concrete vector. -/
theorem C8_witness :
    (∃ x, (⟨[10, 20], 2⟩ : MyVector Nat).atIdx 1 = .ok x ∧
      [10, 20].get? (1 : Int).toNat = some x) ∧
    ((⟨[10, 20], 2⟩ : MyVector Nat).atIdx 5 = .error .indexOutOfRange) ∧
    (∃ w, (⟨[10, 20], 2⟩ : MyVector Nat).pop_back = .ok w ∧
      w.data = [10, 20].dropLast ∧ w.capacity = 2 ∧ w.size = 2 - 1) :=
  ⟨(C8_checked_ops Nat ⟨[10, 20], 2⟩ 1).2.1 (by decide),
   (C8_checked_ops Nat ⟨[10, 20], 2⟩ 5).1.mpr (by decide),
   (C8_checked_ops Nat ⟨[10, 20], 2⟩ 0).2.2.2 (by decide)⟩

/-- C9: the `Book` equality contract: when either side's ISBN is empty
the comparison is triple-wise on (title, author, year); when both are
nonempty it compares the ISBNs alone. -/
theorem C9_book_equality_contract (a b : Book) :
    (a.isbn = "" ∨ b.isbn = "" →
      (Book.beq a b = true ↔
        (a.title = b.title ∧ a.author = b.author ∧
          a.publication_year = b.publication_year))) ∧
    (a.isbn ≠ "" → b.isbn ≠ "" →
      (Book.beq a b = true ↔ a.isbn = b.isbn)) := by
  constructor
  · intro h
    simp only [Book.beq, if_pos h]
    simp
  · intro h1 h2
    have hn : ¬(a.isbn = "" ∨ b.isbn = "") := by tauto
    simp only [Book.beq, if_neg hn]
    simp

/-- Witness for C9: both regimes at concrete books. -/
theorem C9_witness :
    (Book.beq ⟨"T", "A", "", 5⟩ ⟨"T", "A", "I", 5⟩ = true ↔
      ("T" = "T" ∧ "A" = "A" ∧ (5 : Int) = 5)) ∧
    (Book.beq ⟨"T", "A", "X", 5⟩ ⟨"U", "B", "X", 6⟩ = true ↔
      ("X" : String) = "X") :=
  ⟨(C9_book_equality_contract ⟨"T", "A", "", 5⟩ ⟨"T", "A", "I", 5⟩).1
      (Or.inl rfl),
   (C9_book_equality_contract ⟨"T", "A", "X", 5⟩ ⟨"U", "B", "X", 6⟩).2
      (by decide) (by decide)⟩

/-- C10: `Book` equality is not transitive: a book with an empty ISBN
sharing (title, author, year) with two books carrying distinct
nonempty ISBNs equals both, yet those two differ.  Hence it is not an
equivalence relation and node-local duplicate detection is
order-dependent. -/
theorem C10_book_equality_not_transitive :
    Book.beq ⟨"T", "A", "I1", 2000⟩ ⟨"T", "A", "", 2000⟩ = true ∧
    Book.beq ⟨"T", "A", "", 2000⟩ ⟨"T", "A", "I2", 2000⟩ = true ∧
    Book.beq ⟨"T", "A", "I1", 2000⟩ ⟨"T", "A", "I2", 2000⟩ = false := by
  decide

/-! ## Aggregate-count invariant (claims C1, C2, C3) -/

@[simp] theorem name_mk (nm : String) (cs : List Node) (bs : List Book)
    (bc : Nat) : (Node.mk nm cs bs bc).name = nm := rfl

@[simp] theorem children_mk (nm : String) (cs : List Node) (bs : List Book)
    (bc : Nat) : (Node.mk nm cs bs bc).children = cs := rfl

@[simp] theorem books_mk (nm : String) (cs : List Node) (bs : List Book)
    (bc : Nat) : (Node.mk nm cs bs bc).books = bs := rfl

@[simp] theorem bookCount_mk (nm : String) (cs : List Node) (bs : List Book)
    (bc : Nat) : (Node.mk nm cs bs bc).bookCount = bc := rfl

@[simp] theorem countBooks_mk (nm : String) (cs : List Node) (bs : List Book)
    (bc : Nat) :
    (Node.mk nm cs bs bc).countBooks = bs.length + countBooksL cs := by
  simp [Node.countBooks]

@[simp] theorem countBooksL_nil : countBooksL [] = 0 := by simp [countBooksL]

@[simp] theorem countBooksL_cons (c : Node) (cs : List Node) :
    countBooksL (c :: cs) = c.countBooks + countBooksL cs := by
  simp [countBooksL]

theorem countOk_mk (nm : String) (cs : List Node) (bs : List Book)
    (bc : Nat) :
    (Node.mk nm cs bs bc).countOk =
      (decide (bc = bs.length + countBooksL cs) && countOkL cs) := by
  simp [Node.countOk]

@[simp] theorem countOkL_nil : countOkL [] = true := by simp [countOkL]

@[simp] theorem countOkL_cons (c : Node) (cs : List Node) :
    countOkL (c :: cs) = (c.countOk && countOkL cs) := by
  simp [countOkL]

theorem countOk_bookCount {c : Node} (h : c.countOk = true) :
    c.bookCount = c.countBooks := by
  obtain ⟨nm, cs, bs, bc⟩ := c
  simp only [countOk_mk, Bool.and_eq_true, decide_eq_true_eq] at h
  simpa using h.1

theorem countOk_children {c : Node} (h : c.countOk = true) :
    countOkL c.children = true := by
  obtain ⟨nm, cs, bs, bc⟩ := c
  simp only [countOk_mk, Bool.and_eq_true] at h
  simpa using h.2

/-- Embeds `Node::addBook` keeps the node's aggregate count consistent and
changes the true count by one exactly on success. -/
theorem addBook_spec (n : Node) (b : Book) (h : n.countOk = true) :
    (n.addBook b).1.countOk = true ∧
    (n.addBook b).1.countBooks =
      n.countBooks + (if (n.addBook b).2 then 1 else 0) := by
  obtain ⟨nm, cs, bs, bc⟩ := n
  simp only [countOk_mk, Bool.and_eq_true, decide_eq_true_eq] at h
  simp only [Node.addBook]
  by_cases hd : bs.any (fun x => Book.beq x b) <;>
    simp [hd, countOk_mk, h.1, h.2] <;> omega

/-- Path-addressed `Node::addBook` keeps every aggregate count
consistent and changes the true reachable count by one exactly on
success. -/
theorem addBookAt_spec (p : List String) :
    ∀ (n : Node) (b : Book), n.countOk = true →
      (n.addBookAt p b).1.countOk = true ∧
      (n.addBookAt p b).1.countBooks =
        n.countBooks + (if (n.addBookAt p b).2 then 1 else 0) := by
  induction p with
  | nil =>
    intro n b h
    simpa only [Node.addBookAt] using addBook_spec n b h
  | cons s rest ih =>
    have hlist : ∀ (cs : List Node) (b : Book), countOkL cs = true →
        countOkL (addBookChildren cs s rest b).1 = true ∧
        countBooksL (addBookChildren cs s rest b).1 =
          countBooksL cs +
            (if (addBookChildren cs s rest b).2 then 1 else 0) := by
      intro cs
      induction cs with
      | nil => simp [addBookChildren]
      | cons c cs ihc =>
        intro b h
        simp only [countOkL_cons, Bool.and_eq_true] at h
        by_cases hn : c.name = s
        · have hc := ih c b h.1
          simp only [addBookChildren, if_pos hn]
          simp [hc.1, hc.2, h.2]
          omega
        · have hcs := ihc b h.2
          simp only [addBookChildren, if_neg hn]
          simp [hcs.1, hcs.2, h.1]
          omega
    intro n b h
    obtain ⟨nm, cs, bs, bc⟩ := n
    simp only [countOk_mk, Bool.and_eq_true, decide_eq_true_eq] at h
    have hl := hlist cs b h.2
    simp only [Node.addBookAt]
    by_cases hr : (addBookChildren cs s rest b).2 <;>
      simp only [hr, if_true, if_false] <;>
      simp_all [countOk_mk] <;> omega

theorem findIdx?_lt_length {q : α → Bool} {l : List α} {i : Nat}
    (h : l.findIdx? q = some i) : i < l.length :=
  (List.findIdx?_eq_some_iff_findIdx_eq.mp h).1

/-- Embeds `Node::removeBookByTitle` keeps the node consistent and lowers the
true count by one exactly on success. -/
theorem removeBookByTitle_spec (n : Node) (ttl : String)
    (h : n.countOk = true) :
    (n.removeBookByTitle ttl).1.countOk = true ∧
    n.countBooks = (n.removeBookByTitle ttl).1.countBooks +
      (if (n.removeBookByTitle ttl).2 then 1 else 0) := by
  obtain ⟨nm, cs, bs, bc⟩ := n
  simp only [countOk_mk, Bool.and_eq_true, decide_eq_true_eq] at h
  cases hfi : bs.findIdx? (fun x => decide (x.title = ttl)) with
  | none => simp [Node.removeBookByTitle, hfi, countOk_mk, h.1, h.2]
  | some i =>
    have hi : i < bs.length := findIdx?_lt_length hfi
    simp [Node.removeBookByTitle, hfi, countOk_mk, h.1, h.2,
      List.length_eraseIdx, hi]
    omega

/-- Deleting the first child with a name: the returned delta is that
child's stored count, which under the invariant is its true count. -/
theorem removeNamed_spec (cname : String) :
    ∀ cs : List Node, countOkL cs = true →
      countOkL (removeNamed cs cname).1 = true ∧
      countBooksL cs = countBooksL (removeNamed cs cname).1 +
        (removeNamed cs cname).2.getD 0 := by
  intro cs
  induction cs with
  | nil => simp [removeNamed]
  | cons c cs ih =>
    intro h
    simp only [countOkL_cons, Bool.and_eq_true] at h
    by_cases hn : c.name = cname
    · simp only [removeNamed, if_pos hn]
      simp [h.2, countOk_bookCount h.1]
      omega
    · obtain ⟨h1, h2⟩ := ih h.2
      simp only [removeNamed, if_neg hn]
      simp [h.1, h1]
      omega

/-- Embeds `Node::removeChildByName` keeps the node consistent; the true count
drops by the removed subtree's count. -/
theorem removeChildByName_spec (n : Node) (cname : String)
    (h : n.countOk = true) :
    (n.removeChildByName cname).1.countOk = true ∧
    n.countBooks = (n.removeChildByName cname).1.countBooks +
      (n.removeChildByName cname).2.getD 0 := by
  obtain ⟨nm, cs, bs, bc⟩ := n
  simp only [countOk_mk, Bool.and_eq_true, decide_eq_true_eq] at h
  have hr := removeNamed_spec cname cs h.2
  cases h2 : (removeNamed cs cname).2 with
  | none => simp [Node.removeChildByName, h2, countOk_mk, h.1, h.2]
  | some delta =>
    rw [h2] at hr
    simp only [Option.getD_some] at hr
    simp [Node.removeChildByName, h2, countOk_mk, hr.1, h.1]
    omega

/-- Path-addressed `Node::removeBookByTitle` keeps every aggregate
count consistent. -/
theorem removeBookAt_spec (p : List String) :
    ∀ (n : Node) (ttl : String), n.countOk = true →
      (n.removeBookAt p ttl).1.countOk = true ∧
      n.countBooks = (n.removeBookAt p ttl).1.countBooks +
        (if (n.removeBookAt p ttl).2 then 1 else 0) := by
  induction p with
  | nil =>
    intro n ttl h
    simpa only [Node.removeBookAt] using removeBookByTitle_spec n ttl h
  | cons s rest ih =>
    have hlist : ∀ (cs : List Node) (ttl : String), countOkL cs = true →
        countOkL (removeBookChildren cs s rest ttl).1 = true ∧
        countBooksL cs = countBooksL (removeBookChildren cs s rest ttl).1 +
          (if (removeBookChildren cs s rest ttl).2 then 1 else 0) := by
      intro cs
      induction cs with
      | nil => simp [removeBookChildren]
      | cons c cs ihc =>
        intro ttl h
        simp only [countOkL_cons, Bool.and_eq_true] at h
        by_cases hn : c.name = s
        · have hc := ih c ttl h.1
          simp only [removeBookChildren, if_pos hn]
          simp [hc.1, h.2]
          omega
        · have hcs := ihc ttl h.2
          simp only [removeBookChildren, if_neg hn]
          simp [hcs.1, h.1]
          omega
    intro n ttl h
    obtain ⟨nm, cs, bs, bc⟩ := n
    simp only [countOk_mk, Bool.and_eq_true, decide_eq_true_eq] at h
    have hl := hlist cs ttl h.2
    simp only [Node.removeBookAt]
    by_cases hr : (removeBookChildren cs s rest ttl).2 <;>
      simp only [hr, if_true, if_false] <;>
      simp_all [countOk_mk] <;> omega

/-- Path-addressed `Node::removeChildByName` keeps every aggregate
count consistent. -/
theorem removeChildAt_spec (p : List String) :
    ∀ (n : Node) (cname : String), n.countOk = true →
      (n.removeChildAt p cname).1.countOk = true ∧
      n.countBooks = (n.removeChildAt p cname).1.countBooks +
        (n.removeChildAt p cname).2.getD 0 := by
  induction p with
  | nil =>
    intro n cname h
    simpa only [Node.removeChildAt] using removeChildByName_spec n cname h
  | cons s rest ih =>
    have hlist : ∀ (cs : List Node) (cname : String), countOkL cs = true →
        countOkL (removeChildChildren cs s rest cname).1 = true ∧
        countBooksL cs =
          countBooksL (removeChildChildren cs s rest cname).1 +
            (removeChildChildren cs s rest cname).2.getD 0 := by
      intro cs
      induction cs with
      | nil => simp [removeChildChildren]
      | cons c cs ihc =>
        intro cname h
        simp only [countOkL_cons, Bool.and_eq_true] at h
        by_cases hn : c.name = s
        · have hc := ih c cname h.1
          simp only [removeChildChildren, if_pos hn]
          simp [hc.1, h.2]
          omega
        · have hcs := ihc cname h.2
          simp only [removeChildChildren, if_neg hn]
          simp [hcs.1, h.1]
          omega
    intro n cname h
    obtain ⟨nm, cs, bs, bc⟩ := n
    simp only [countOk_mk, Bool.and_eq_true, decide_eq_true_eq] at h
    have hl := hlist cs cname h.2
    cases hr : (removeChildChildren cs s rest cname).2 with
    | none =>
      rw [hr] at hl
      simp_all [Node.removeChildAt, hr, countOk_mk]
    | some delta =>
      rw [hr] at hl
      simp only [Option.getD_some] at hl
      simp_all [Node.removeChildAt, hr, countOk_mk]
      omega

/-- The segment walk of `Tree::createNode` keeps every aggregate count
consistent and adds no books. -/
theorem createPath_spec (p : List String) :
    ∀ n : Node, n.countOk = true →
      (n.createPath p).1.countOk = true ∧
      (n.createPath p).1.countBooks = n.countBooks := by
  induction p with
  | nil =>
    intro n h
    simp [Node.createPath, h]
  | cons s rest ih =>
    have hlist : ∀ cs : List Node, countOkL cs = true →
        countOkL (createChildren cs s rest).1 = true ∧
        countBooksL (createChildren cs s rest).1 = countBooksL cs := by
      intro cs
      induction cs with
      | nil =>
        intro _
        have hf := ih (.mk s [] [] 0) (by simp [countOk_mk])
        simp only [createChildren]
        simp [hf.1, hf.2]
      | cons c cs ihc =>
        intro h
        simp only [countOkL_cons, Bool.and_eq_true] at h
        by_cases hn : c.name = s
        · have hc := ih c h.1
          simp only [createChildren, if_pos hn]
          simp [hc.1, hc.2, h.2]
        · have hcs := ihc h.2
          simp only [createChildren, if_neg hn]
          simp [hcs.1, hcs.2, h.1]
    intro n h
    obtain ⟨nm, cs, bs, bc⟩ := n
    simp only [countOk_mk, Bool.and_eq_true, decide_eq_true_eq] at h
    have hl := hlist cs h.2
    simp only [Node.createPath]
    simp [countOk_mk, hl.1, hl.2, h.1]

/-- C1: starting from a freshly constructed tree, after every sequence
of `Node::addBook` / `Node::removeChildByName` /
`Node::removeBookByTitle` / `Tree::createNode` operations, every
node's `bookCount` equals the number of book records actually
reachable in that node's subtree (its local books plus all
descendants' books, counted recursively). -/
theorem C1_aggregate_count_invariant (rootName : String)
    (ops : List CatOp) :
    ((CatTree.new rootName).applyOps ops).root.countOk = true := by
  have key : ∀ (ops : List CatOp) (t : CatTree), t.root.countOk = true →
      (t.applyOps ops).root.countOk = true := by
    intro ops
    induction ops with
    | nil => intro t h; exact h
    | cons op ops ih =>
      intro t h
      show ((t.applyOp op).applyOps ops).root.countOk = true
      apply ih
      cases op with
      | addBook p b => exact (addBookAt_spec p t.root b h).1
      | removeChild p c => exact (removeChildAt_spec p t.root c h).1
      | removeBook p ttl => exact (removeBookAt_spec p t.root ttl h).1
      | createNode p =>
        simp only [CatTree.applyOp, CatTree.createNode]
        by_cases hp : p = "" ∨ p = "/"
        · simpa [hp] using h
        · simp only [hp, if_false]
          exact (createPath_spec (splitPath p) t.root h).1
  exact key ops (CatTree.new rootName) (by simp [CatTree.new, countOk_mk])

/-! ## Lemmas about path creation and duplicate rejection -/

@[simp] theorem uniqueNames_mk (nm : String) (cs : List Node)
    (bs : List Book) (bc : Nat) :
    (Node.mk nm cs bs bc).uniqueNames = uniqueL cs := by
  simp [Node.uniqueNames]

@[simp] theorem uniqueL_nil : uniqueL [] = true := by simp [uniqueL]

@[simp] theorem uniqueL_cons (c : Node) (cs : List Node) :
    uniqueL (c :: cs) =
      (cs.all (fun d => d.name ≠ c.name) && c.uniqueNames && uniqueL cs) := by
  simp [uniqueL]

theorem findNamed_name :
    ∀ {cs : List Node} {s : String} {c : Node},
      findNamed cs s = some c → c.name = s := by
  intro cs
  induction cs with
  | nil => intro s c h; simp [findNamed] at h
  | cons d ds ih =>
    intro s c h
    by_cases hn : d.name = s
    · simp only [findNamed, if_pos hn, Option.some.injEq] at h
      subst h; exact hn
    · simp only [findNamed, if_neg hn] at h
      exact ih h

theorem findNamed_mem :
    ∀ {cs : List Node} {s : String} {c : Node},
      findNamed cs s = some c → c ∈ cs := by
  intro cs
  induction cs with
  | nil => intro s c h; simp [findNamed] at h
  | cons d ds ih =>
    intro s c h
    by_cases hn : d.name = s
    · simp only [findNamed, if_pos hn, Option.some.injEq] at h
      subst h; exact List.mem_cons_self d ds
    · simp only [findNamed, if_neg hn] at h
      exact List.mem_cons_of_mem d (ih h)

theorem findNamed_none :
    ∀ {cs : List Node} {s : String}, findNamed cs s = none →
      ∀ c ∈ cs, c.name ≠ s := by
  intro cs
  induction cs with
  | nil => intro s _ c hc; simp at hc
  | cons d ds ih =>
    intro s h c hc
    by_cases hn : d.name = s
    · simp [findNamed, if_pos hn] at h
    · simp only [findNamed, if_neg hn] at h
      rcases List.mem_cons.mp hc with rfl | hc
      · exact hn
      · exact ih h c hc

theorem findNamed_append_none {cs : List Node} {s : String}
    (h : findNamed cs s = none) (ds : List Node) :
    findNamed (cs ++ ds) s = findNamed ds s := by
  induction cs with
  | nil => simp
  | cons d cs ih =>
    by_cases hn : d.name = s
    · simp [findNamed, if_pos hn] at h
    · simp only [findNamed, if_neg hn] at h
      simpa [findNamed, if_neg hn] using ih h

theorem findNamed_prepost {pre : List Node} {s : String}
    (h : findNamed pre s = none) (c : Node) (hc : c.name = s)
    (post : List Node) : findNamed (pre ++ c :: post) s = some c := by
  rw [findNamed_append_none h]
  simp [findNamed, hc]

/-- Characterization of one `addChild`-and-descend step of
`createNode`: either no child is named `s` and a fresh subtree is
appended, or the first child named `s` is replaced in place by its
descent. -/
theorem createChildren_char (s : String) (rest : List String) :
    ∀ cs : List Node,
      (findNamed cs s = none ∧
        createChildren cs s rest =
          (cs ++ [((Node.mk s [] [] 0).createPath rest).1],
           ((Node.mk s [] [] 0).createPath rest).2)) ∨
      (∃ c pre post, findNamed cs s = some c ∧ cs = pre ++ c :: post ∧
        findNamed pre s = none ∧
        createChildren cs s rest =
          (pre ++ (c.createPath rest).1 :: post, (c.createPath rest).2)) := by
  intro cs
  induction cs with
  | nil => left; simp [findNamed, createChildren]
  | cons d ds ih =>
    by_cases hn : d.name = s
    · right
      refine ⟨d, [], ds, ?_, by simp, by simp [findNamed], ?_⟩
      · simp [findNamed, hn]
      · simp [createChildren, if_pos hn]
    · rcases ih with ⟨h1, h2⟩ | ⟨c, pre, post, h1, h2, h3, h4⟩
      · left
        refine ⟨by simp [findNamed, if_neg hn, h1], ?_⟩
        simp [createChildren, if_neg hn, h2]
      · right
        refine ⟨c, d :: pre, post, ?_, by simp [h2], ?_, ?_⟩
        · simp [findNamed, if_neg hn, h1]
        · simp [findNamed, if_neg hn, h3]
        · simp [createChildren, if_neg hn, h4]

theorem createPath_name (p : List String) :
    ∀ n : Node, ((n.createPath p).1).name = n.name := by
  cases p with
  | nil => intro n; simp [Node.createPath]
  | cons s rest =>
    intro n
    obtain ⟨nm, cs, bs, bc⟩ := n
    simp [Node.createPath]

/-- After `createNode`, the created path resolves to the node the call
returned. -/
theorem createPath_getNode (p : List String) :
    ∀ n : Node, getNodeParts p ((n.createPath p).1) =
      some ((n.createPath p).2) := by
  induction p with
  | nil => intro n; simp [Node.createPath, getNodeParts]
  | cons s rest ih =>
    intro n
    obtain ⟨nm, cs, bs, bc⟩ := n
    simp only [Node.createPath]
    rcases createChildren_char s rest cs with ⟨h1, h2⟩ |
      ⟨c, pre, post, h1, h2, h3, h4⟩
    · rw [h2]
      simp only [getNodeParts, children_mk]
      rw [findNamed_append_none h1]
      have hx : ((Node.mk s [] [] 0).createPath rest).1.name = s :=
        createPath_name rest _
      simp only [findNamed, hx, if_pos rfl]
      exact ih _
    · rw [h4]
      simp only [getNodeParts, children_mk]
      rw [findNamed_prepost h3 _ ((createPath_name rest c).trans
        (findNamed_name h1)) post]
      exact ih c

/-- Embeds `createNode` on an already-existing path changes nothing and
returns the resolved node. -/
theorem createPath_resolved (p : List String) :
    ∀ (n m : Node), getNodeParts p n = some m →
      n.createPath p = (n, m) := by
  induction p with
  | nil =>
    intro n m h
    simp only [getNodeParts, Option.some.injEq] at h
    simp [Node.createPath, h]
  | cons s rest ih =>
    intro n m h
    obtain ⟨nm, cs, bs, bc⟩ := n
    simp only [getNodeParts, children_mk] at h
    cases hf : findNamed cs s with
    | none => rw [hf] at h; simp at h
    | some c =>
      rw [hf] at h
      simp only at h
      have hc := ih c m h
      simp only [Node.createPath]
      rcases createChildren_char s rest cs with ⟨h1, _⟩ |
        ⟨c', pre, post, h1, h2, h3, h4⟩
      · rw [h1] at hf; exact absurd hf (by simp)
      · rw [h1] at hf
        injection hf with hf
        subst hf
        rw [h4, hc]
        simp [h2]

/-- The chain of nodes freshly created below a missing segment holds no
books; in particular the node `createNode` returns for a previously
unresolvable path has an empty local book list. -/
theorem createPath_none_books (p : List String) :
    ∀ n : Node, getNodeParts p n = none →
      ((n.createPath p).2).books = [] := by
  have fresh : ∀ (rest : List String) (s : String),
      (((Node.mk s [] [] 0).createPath rest).2).books = [] := by
    intro rest
    induction rest with
    | nil => intro s; simp [Node.createPath]
    | cons r rest ih =>
      intro s
      simp only [Node.createPath]
      rcases createChildren_char r rest [] with ⟨_, h2⟩ | ⟨c, pre, post, _, h2, _, _⟩
      · rw [h2]
        exact ih r
      · exact absurd h2 (by simp)
  induction p with
  | nil => intro n h; simp [getNodeParts] at h
  | cons s rest ih =>
    intro n h
    obtain ⟨nm, cs, bs, bc⟩ := n
    simp only [getNodeParts, children_mk] at h
    simp only [Node.createPath]
    rcases createChildren_char s rest cs with ⟨h1, h2⟩ |
      ⟨c, pre, post, h1, h2, h3, h4⟩
    · rw [h2]
      exact fresh rest s
    · rw [h1] at h
      simp only at h
      rw [h4]
      exact ih c h

/-- A failing path-addressed `addBook` leaves the subtree unchanged. -/
theorem addBookAt_fail_id (p : List String) :
    ∀ (n : Node) (b : Book), (n.addBookAt p b).2 = false →
      (n.addBookAt p b).1 = n := by
  induction p with
  | nil =>
    intro n b
    obtain ⟨nm, cs, bs, bc⟩ := n
    simp only [Node.addBookAt, Node.addBook]
    by_cases hd : bs.any (fun x => Book.beq x b) <;> simp [hd]
  | cons s rest ih =>
    have hlist : ∀ (cs : List Node) (b : Book),
        (addBookChildren cs s rest b).2 = false →
        (addBookChildren cs s rest b).1 = cs := by
      intro cs b
      induction cs with
      | nil => simp [addBookChildren]
      | cons c cs ihc =>
        by_cases hn : c.name = s
        · simp only [addBookChildren, if_pos hn]
          intro h2
          simp [ih c b h2]
        · simp only [addBookChildren, if_neg hn]
          intro h2
          simp [ihc h2]
    intro n b
    obtain ⟨nm, cs, bs, bc⟩ := n
    simp only [Node.addBookAt]
    by_cases hr : (addBookChildren cs s rest b).2 <;> simp [hr]
    exact hlist cs b (by simpa using hr)

/-- Success of a path-addressed `addBook` is decided exactly by the
local books of the addressed node: it fails iff one of them equals the
inserted book. -/
theorem addBookAt_snd (p : List String) :
    ∀ (t m : Node) (b : Book), getNodeParts p t = some m →
      (t.addBookAt p b).2 = !(m.books.any (fun x => Book.beq x b)) := by
  induction p with
  | nil =>
    intro t m b h
    simp only [getNodeParts, Option.some.injEq] at h
    subst h
    obtain ⟨nm, cs, bs, bc⟩ := t
    simp only [Node.addBookAt, Node.addBook]
    by_cases hd : bs.any (fun x => Book.beq x b) <;> simp [hd]
  | cons s rest ih =>
    have hlist : ∀ (cs : List Node) (c : Node) (b : Book),
        findNamed cs s = some c →
        (addBookChildren cs s rest b).2 = (c.addBookAt rest b).2 := by
      intro cs c b hf
      induction cs with
      | nil => simp [findNamed] at hf
      | cons d ds ihc =>
        by_cases hn : d.name = s
        · simp only [findNamed, if_pos hn, Option.some.injEq] at hf
          subst hf
          simp [addBookChildren, if_pos hn]
        · simp only [findNamed, if_neg hn] at hf
          simp [addBookChildren, if_neg hn, ihc hf]
    intro t m b h
    obtain ⟨nm, cs, bs, bc⟩ := t
    simp only [getNodeParts, children_mk] at h
    cases hf : findNamed cs s with
    | none => rw [hf] at h; simp at h
    | some c =>
      rw [hf] at h
      simp only at h
      have h2 := ih c m b h
      simp only [Node.addBookAt]
      rw [hlist cs c b hf, h2]
      by_cases hd : m.books.any (fun x => Book.beq x b) <;> simp [hd]

theorem splitPath_empty : splitPath "" = [] := rfl

theorem splitPath_slash : splitPath "/" = [] := rfl

theorem createNode_root (t : CatTree) (p : String) :
    (t.createNode p).1.root = (t.root.createPath (splitPath p)).1 ∧
    (t.createNode p).2 = (t.root.createPath (splitPath p)).2 := by
  by_cases hp : p = "" ∨ p = "/"
  · rcases hp with rfl | rfl <;>
      simp [CatTree.createNode, splitPath_empty, splitPath_slash,
        Node.createPath]
  · simp [CatTree.createNode, hp]

/-- C2: `Tree::addBookAt` is atomic: on success (return `true`) it
inserts exactly one record (the reachable count grows by one) and
every aggregate count remains consistent; on failure (return `false`,
a duplicate) the tree is exactly as it was — in particular no new
category nodes exist. -/
theorem C2_addBookAt_atomic (t : CatTree) (p : String) (b : Book)
    (h : t.root.countOk = true) :
    ((t.addBookAt p b).2 = true →
      (t.addBookAt p b).1.root.countOk = true ∧
      (t.addBookAt p b).1.root.countBooks = t.root.countBooks + 1) ∧
    ((t.addBookAt p b).2 = false → t.addBookAt p b = (t, false)) := by
  have hroot := (createNode_root t p).1
  have hcp := createPath_spec (splitPath p) t.root h
  constructor
  · intro hs
    simp only [CatTree.addBookAt, hroot] at hs ⊢
    have hadd := addBookAt_spec (splitPath p)
      ((t.root.createPath (splitPath p)).1) b hcp.1
    refine ⟨hadd.1, ?_⟩
    rw [hadd.2, hs, hcp.2]
    simp
  · intro hs
    simp only [CatTree.addBookAt, hroot] at hs ⊢
    have hres := createPath_getNode (splitPath p) t.root
    have hsnd := addBookAt_snd (splitPath p)
      ((t.root.createPath (splitPath p)).1)
      ((t.root.createPath (splitPath p)).2) b hres
    rw [hs] at hsnd
    have hdup : (((t.root.createPath (splitPath p)).2).books.any
        (fun x => Book.beq x b)) = true := by
      cases hany : (((t.root.createPath (splitPath p)).2).books.any
          (fun x => Book.beq x b)) with
      | true => rfl
      | false => rw [hany] at hsnd; simp at hsnd
    have hsome : ∃ m, getNodeParts (splitPath p) t.root = some m := by
      cases hg : getNodeParts (splitPath p) t.root with
      | some m => exact ⟨m, rfl⟩
      | none =>
        have := createPath_none_books (splitPath p) t.root hg
        rw [this] at hdup
        simp at hdup
    obtain ⟨m, hm⟩ := hsome
    have hfix := addBookAt_fail_id (splitPath p)
      ((t.root.createPath (splitPath p)).1) b hs
    have hsame := createPath_resolved (splitPath p) t.root m hm
    have hX : (t.root.createPath (splitPath p)).1 = t.root := by rw [hsame]
    rw [hX] at hfix hs ⊢
    refine Prod.ext ?_ hs
    show (⟨(t.root.addBookAt (splitPath p) b).1⟩ : CatTree) = t
    rw [hfix]

/-- Witness for C2: a duplicate insertion into an existing node leaves
the concrete tree untouched. -/
theorem C2_witness :
    (⟨Node.mk "R" [Node.mk "A" [] [⟨"t", "a", "i", 1⟩] 1] [] 1⟩ :
        CatTree).addBookAt "A" ⟨"t", "a", "i", 1⟩ =
      (⟨Node.mk "R" [Node.mk "A" [] [⟨"t", "a", "i", 1⟩] 1] [] 1⟩, false) :=
  (C2_addBookAt_atomic
      ⟨Node.mk "R" [Node.mk "A" [] [⟨"t", "a", "i", 1⟩] 1] [] 1⟩
      "A" ⟨"t", "a", "i", 1⟩
      (by simp [countOk_mk])).2
    (by simp [CatTree.addBookAt, CatTree.createNode, Node.createPath,
      createChildren, Node.addBookAt, addBookChildren, Node.addBook,
      findNamed, splitPath, splitGo, Book.beq])

/-- C3: `Node::addBook` rejects exactly the duplicates among the
addressed node's own local records: if a local record equals the new
one (by `Book.beq`) the call fails and the whole tree — the node's
list, its count, every ancestor's count — is unchanged; records equal
to the new one held only by descendants do not cause rejection. -/
theorem C3_local_duplicate_rejection (t m : Node) (p : List String)
    (r : Book) (h : getNodeParts p t = some m) :
    (m.books.any (fun x => Book.beq x r) = true →
      t.addBookAt p r = (t, false)) ∧
    (m.books.any (fun x => Book.beq x r) = false →
      (t.addBookAt p r).2 = true) := by
  have hs := addBookAt_snd p t m r h
  constructor
  · intro hd
    rw [hd] at hs
    simp only [Bool.not_true] at hs
    exact Prod.ext (addBookAt_fail_id p t r hs) hs
  · intro hd
    rw [hd] at hs
    simpa using hs

/-- Witness for C3: duplicate in the addressed node rejects and leaves
the tree unchanged; the same book sitting only in a descendant does
not prevent insertion at the parent. -/
theorem C3_witness :
    ((Node.mk "R" [Node.mk "A" [] [⟨"t", "a", "i", 1⟩] 1] [] 1).addBookAt
        ["A"] ⟨"t", "a", "i", 1⟩ =
      (Node.mk "R" [Node.mk "A" [] [⟨"t", "a", "i", 1⟩] 1] [] 1, false)) ∧
    (((Node.mk "R" [Node.mk "A" [] [⟨"t", "a", "i", 1⟩] 1] [] 1).addBookAt
        [] ⟨"t", "a", "i", 1⟩).2 = true) :=
  ⟨(C3_local_duplicate_rejection
      (Node.mk "R" [Node.mk "A" [] [⟨"t", "a", "i", 1⟩] 1] [] 1)
      (Node.mk "A" [] [⟨"t", "a", "i", 1⟩] 1) ["A"] ⟨"t", "a", "i", 1⟩
      (by simp [getNodeParts, findNamed])).1 (by simp [Book.beq]),
   (C3_local_duplicate_rejection
      (Node.mk "R" [Node.mk "A" [] [⟨"t", "a", "i", 1⟩] 1] [] 1)
      (Node.mk "R" [Node.mk "A" [] [⟨"t", "a", "i", 1⟩] 1] [] 1) []
      ⟨"t", "a", "i", 1⟩ (by simp [getNodeParts])).2 (by simp)⟩

/-! ## Uniqueness of sibling names and idempotent path creation (C4) -/

theorem countNamed_nil (s : String) : countNamed [] s = 0 := by
  simp [countNamed]

theorem countNamed_cons (c : Node) (cs : List Node) (s : String) :
    countNamed (c :: cs) s =
      countNamed cs s + (if c.name = s then 1 else 0) := by
  simp [countNamed, List.countP_cons]

theorem countNamed_append (cs ds : List Node) (s : String) :
    countNamed (cs ++ ds) s = countNamed cs s + countNamed ds s := by
  simp [countNamed, List.countP_append]

theorem findNamed_none_count {cs : List Node} {s : String}
    (h : findNamed cs s = none) : countNamed cs s = 0 := by
  rw [countNamed, List.countP_eq_zero]
  intro c hc
  simpa using findNamed_none h c hc

theorem uniqueL_mem :
    ∀ {cs : List Node}, uniqueL cs = true → ∀ {c : Node}, c ∈ cs →
      c.uniqueNames = true := by
  intro cs
  induction cs with
  | nil => intro _ c hc; simp at hc
  | cons d ds ih =>
    intro h c hc
    simp only [uniqueL_cons, Bool.and_eq_true] at h
    rcases List.mem_cons.mp hc with rfl | hc
    · exact h.1.2
    · exact ih h.2 hc

theorem uniqueL_findNamed_count :
    ∀ {cs : List Node} {s : String} {c : Node}, uniqueL cs = true →
      findNamed cs s = some c → countNamed cs s = 1 := by
  intro cs
  induction cs with
  | nil => intro s c _ h; simp [findNamed] at h
  | cons d ds ih =>
    intro s c hu hf
    simp only [uniqueL_cons, Bool.and_eq_true] at hu
    rw [countNamed_cons]
    by_cases hn : d.name = s
    · have hz : countNamed ds s = 0 := by
        rw [countNamed, List.countP_eq_zero]
        intro e he
        have := List.all_eq_true.mp hu.1.1 e he
        simp only [decide_eq_true_eq] at this
        simp only [decide_eq_true_eq]
        rw [← hn]
        exact this
      simp [hn, hz]
    · simp only [findNamed, if_neg hn] at hf
      simp [hn, ih hu.2 hf]

theorem uniqueL_append_one :
    ∀ {cs : List Node} {x : Node}, uniqueL cs = true →
      x.uniqueNames = true → (∀ c ∈ cs, c.name ≠ x.name) →
      uniqueL (cs ++ [x]) = true := by
  intro cs
  induction cs with
  | nil => intro x _ hx _; simp [hx]
  | cons d ds ih =>
    intro x hu hx hne
    simp only [uniqueL_cons, Bool.and_eq_true] at hu
    simp only [List.cons_append, uniqueL_cons, Bool.and_eq_true]
    refine ⟨⟨?_, hu.1.2⟩, ih hu.2 hx fun c hc => hne c (by simp [hc])⟩
    rw [List.all_append]
    simp only [Bool.and_eq_true]
    refine ⟨hu.1.1, ?_⟩
    simp only [List.all_cons, List.all_nil, Bool.and_true,
      decide_eq_true_eq]
    exact fun h => (hne d (by simp) h.symm).elim

theorem uniqueL_replace :
    ∀ {pre : List Node} {c c' : Node} {post : List Node},
      uniqueL (pre ++ c :: post) = true → c'.name = c.name →
      c'.uniqueNames = true → uniqueL (pre ++ c' :: post) = true := by
  intro pre
  induction pre with
  | nil =>
    intro c c' post hu hn hc
    simp only [List.nil_append, uniqueL_cons, Bool.and_eq_true] at hu ⊢
    refine ⟨⟨?_, hc⟩, hu.2⟩
    simpa only [hn] using hu.1.1
  | cons d pre ih =>
    intro c c' post hu hn hc
    simp only [List.cons_append, uniqueL_cons, Bool.and_eq_true] at hu ⊢
    refine ⟨⟨?_, hu.1.2⟩, ih hu.2 hn hc⟩
    have h1 := hu.1.1
    rw [List.all_append] at h1 ⊢
    simp only [Bool.and_eq_true] at h1 ⊢
    refine ⟨h1.1, ?_⟩
    have h2 := h1.2
    simp only [List.all_cons, Bool.and_eq_true, decide_eq_true_eq]
      at h2 ⊢
    exact ⟨by rw [hn]; exact h2.1, h2.2⟩

/-- Embeds `createNode` never creates duplicate-name siblings: the
sibling-name uniqueness invariant is preserved. -/
theorem createPath_unique (p : List String) :
    ∀ n : Node, n.uniqueNames = true →
      ((n.createPath p).1).uniqueNames = true := by
  induction p with
  | nil => intro n h; simpa [Node.createPath] using h
  | cons s rest ih =>
    intro n hu
    obtain ⟨nm, cs, bs, bc⟩ := n
    simp only [uniqueNames_mk] at hu
    simp only [Node.createPath]
    rcases createChildren_char s rest cs with ⟨h1, h2⟩ |
      ⟨c, pre, post, h1, h2, h3, h4⟩
    · rw [h2]
      simp only [uniqueNames_mk]
      refine uniqueL_append_one hu (ih _ (by simp)) ?_
      intro c hc
      rw [createPath_name]
      simpa using findNamed_none h1 c hc
    · rw [h4]
      simp only [uniqueNames_mk]
      rw [h2] at hu
      exact uniqueL_replace hu (createPath_name rest c)
        (ih c (uniqueL_mem (h2 ▸ hu) (findNamed_mem h1)))

/-- After `createNode` on a path ending in `last`, the parent denoted
by the leading segments resolves and has exactly one child named
`last`. -/
theorem createPath_count (q : List String) :
    ∀ (last : String) (n : Node), n.uniqueNames = true →
      ∃ m, getNodeParts q ((n.createPath (q ++ [last])).1) = some m ∧
        countNamed m.children last = 1 := by
  induction q with
  | nil =>
    intro last n hu
    obtain ⟨nm, cs, bs, bc⟩ := n
    simp only [uniqueNames_mk] at hu
    simp only [List.nil_append, Node.createPath]
    rcases createChildren_char last [] cs with ⟨h1, h2⟩ |
      ⟨c, pre, post, h1, h2, h3, h4⟩
    · rw [h2]
      refine ⟨_, rfl, ?_⟩
      simp only [children_mk]
      have hx : ((Node.mk last [] [] 0).createPath []).1 =
          Node.mk last [] [] 0 := by simp [Node.createPath]
      rw [hx, countNamed_append, findNamed_none_count h1]
      simp [countNamed_cons, countNamed_nil]
    · rw [h4]
      refine ⟨_, rfl, ?_⟩
      simp only [children_mk]
      have hc : (c.createPath []).1 = c := by simp [Node.createPath]
      rw [hc, ← h2]
      exact uniqueL_findNamed_count hu h1
  | cons s q ih =>
    intro last n hu
    obtain ⟨nm, cs, bs, bc⟩ := n
    simp only [uniqueNames_mk] at hu
    simp only [List.cons_append, Node.createPath]
    rcases createChildren_char s (q ++ [last]) cs with ⟨h1, h2⟩ |
      ⟨c, pre, post, h1, h2, h3, h4⟩
    · rw [h2]
      have hx := createPath_name (q ++ [last]) (Node.mk s [] [] 0)
      obtain ⟨m, hm1, hm2⟩ := ih last (Node.mk s [] [] 0) (by simp)
      refine ⟨m, ?_, hm2⟩
      simp only [getNodeParts, children_mk]
      rw [findNamed_append_none h1]
      simp only [name_mk] at hx
      simp only [findNamed, hx, if_pos]
      exact hm1
    · rw [h4]
      have hcu : c.uniqueNames = true :=
        uniqueL_mem hu (findNamed_mem h1)
      obtain ⟨m, hm1, hm2⟩ := ih last c hcu
      refine ⟨m, ?_, hm2⟩
      simp only [getNodeParts, children_mk]
      rw [findNamed_prepost h3 _ ((createPath_name _ c).trans
        (findNamed_name h1)) post]
      exact hm1

/-- C4: path creation is idempotent: a second `Tree::createNode` with
the same path returns the same tree and the same node and creates
nothing; after creation the parent denoted by all but the last segment
has exactly one child named with the last segment; sibling-name
uniqueness is preserved; and `Node::addChild` returns the existing
child when present. -/
theorem C4_createNode_idempotent (t : CatTree) (p : String)
    (hu : t.root.uniqueNames = true) :
    ((t.createNode p).1.createNode p =
      ((t.createNode p).1, (t.createNode p).2)) ∧
    (∀ q last, splitPath p = q ++ [last] →
      ∃ m, getNodeParts q ((t.createNode p).1.root) = some m ∧
        countNamed m.children last = 1) ∧
    ((t.createNode p).1.root.uniqueNames = true) ∧
    (∀ (n c : Node) (s : String), findNamed n.children s = some c →
      n.addChild s = (n, c)) := by
  have haddChild : ∀ (n c : Node) (s : String),
      findNamed n.children s = some c → n.addChild s = (n, c) := by
    intro n c s h
    simp [Node.addChild, h]
  by_cases hp : p = "" ∨ p = "/"
  · refine ⟨?_, ?_, ?_, haddChild⟩
    · simp [CatTree.createNode, hp]
    · intro q last hql
      rcases hp with rfl | rfl
      · rw [splitPath_empty] at hql
        exact absurd hql (by simp)
      · rw [splitPath_slash] at hql
        exact absurd hql (by simp)
    · rcases hp with rfl | rfl <;> simpa [CatTree.createNode] using hu
  · have hg := createPath_getNode (splitPath p) t.root
    have hres := createPath_resolved (splitPath p)
      ((t.root.createPath (splitPath p)).1)
      ((t.root.createPath (splitPath p)).2) hg
    refine ⟨?_, ?_, ?_, haddChild⟩
    · simp only [CatTree.createNode, hp, if_false]
      rw [hres]
    · intro q last hql
      have := createPath_count q last t.root hu
      rw [← hql] at this
      simpa [CatTree.createNode, hp] using this
    · simp only [CatTree.createNode, hp, if_false]
      exact createPath_unique (splitPath p) t.root hu

/-- Witness for C4: creating "A/B" twice in a fresh tree. -/
theorem C4_witness :
    (((CatTree.new "L").createNode "A/B").1.createNode "A/B" =
      (((CatTree.new "L").createNode "A/B").1,
       ((CatTree.new "L").createNode "A/B").2)) ∧
    ∃ m, getNodeParts ["A"] (((CatTree.new "L").createNode "A/B").1.root) =
        some m ∧ countNamed m.children "B" = 1 :=
  ⟨(C4_createNode_idempotent (CatTree.new "L") "A/B"
      (by simp [CatTree.new])).1,
   (C4_createNode_idempotent (CatTree.new "L") "A/B"
      (by simp [CatTree.new])).2.1 ["A"] "B" (by decide)⟩

/-! ## Path strings: splitting, joining, and removeNode (C5) -/

theorem splitGo_slash (l cur : List Char) :
    splitGo ('/' :: l) cur =
      if cur.isEmpty then splitGo l []
      else (⟨cur⟩ : String) :: splitGo l [] := by
  simp [splitGo]

theorem splitGo_append (sd : List Char) (hs : ∀ ch ∈ sd, ch ≠ '/') :
    ∀ (l cur : List Char), splitGo (sd ++ l) cur = splitGo l (cur ++ sd) := by
  induction sd with
  | nil => intro l cur; simp
  | cons c sd ih =>
    intro l cur
    have hc : c ≠ '/' := hs c (by simp)
    have hrest : ∀ ch ∈ sd, ch ≠ '/' := fun ch hch => hs ch (by simp [hch])
    simp only [List.cons_append, splitGo, if_neg hc]
    exact (ih hrest l (cur ++ [c])).trans (by simp)

theorem splitGo_segments :
    ∀ (l cur : List Char), (∀ ch ∈ cur, ch ≠ '/') →
      ∀ seg ∈ splitGo l cur, seg.data ≠ [] ∧ ∀ ch ∈ seg.data, ch ≠ '/' := by
  intro l
  induction l with
  | nil =>
    intro cur hcur seg hseg
    simp only [splitGo] at hseg
    cases hemp : cur.isEmpty with
    | true => rw [hemp] at hseg; simp at hseg
    | false =>
      rw [hemp] at hseg
      simp only [Bool.false_eq_true, if_false, List.mem_singleton] at hseg
      subst hseg
      refine ⟨?_, hcur⟩
      intro hnil
      rw [show (⟨cur⟩ : String).data = cur from rfl] at hnil
      rw [hnil] at hemp
      simp at hemp
  | cons c rest ih =>
    intro cur hcur seg hseg
    by_cases hc : c = '/'
    · subst hc
      rw [splitGo_slash] at hseg
      cases hemp : cur.isEmpty with
      | true =>
        rw [hemp] at hseg
        simp only [if_true] at hseg
        exact ih [] (by simp) seg hseg
      | false =>
        rw [hemp] at hseg
        simp only [Bool.false_eq_true, if_false, List.mem_cons] at hseg
        rcases hseg with rfl | hseg
        · refine ⟨?_, hcur⟩
          intro hnil
          rw [show (⟨cur⟩ : String).data = cur from rfl] at hnil
          rw [hnil] at hemp
          simp at hemp
        · exact ih [] (by simp) seg hseg
    · simp only [splitGo, if_neg hc] at hseg
      refine ih (cur ++ [c]) ?_ seg hseg
      intro ch hch
      rcases List.mem_append.mp hch with h | h
      · exact hcur ch h
      · simp only [List.mem_singleton] at h
        subst h; exact hc

theorem splitPath_segments (p : String) :
    ∀ seg ∈ splitPath p, seg.data ≠ [] ∧ ∀ ch ∈ seg.data, ch ≠ '/' :=
  splitGo_segments p.data [] (by simp)

theorem joinPath_cons_data (s s2 : String) (rest2 : List String) :
    (joinPath (s :: s2 :: rest2)).data =
      s.data ++ '/' :: (joinPath (s2 :: rest2)).data := by
  show (s ++ "/" ++ joinPath (s2 :: rest2)).data = _
  rw [String.data_append, String.data_append, List.append_assoc]
  rfl

theorem splitPath_joinPath :
    ∀ segs : List String,
      (∀ seg ∈ segs, seg.data ≠ [] ∧ ∀ ch ∈ seg.data, ch ≠ '/') →
      splitPath (joinPath segs) = segs := by
  intro segs
  induction segs with
  | nil => intro _; rfl
  | cons s rest ih =>
    intro hsegs
    have hs := hsegs s (by simp)
    have hnem : ¬(s.data.isEmpty = true) := by
      intro hemp
      exact hs.1 (List.isEmpty_iff.mp hemp)
    cases rest with
    | nil =>
      show splitGo (joinPath [s]).data [] = [s]
      have hjs : (joinPath [s]).data = s.data ++ [] := by simp [joinPath]
      rw [hjs, splitGo_append s.data hs.2]
      simp only [List.nil_append, splitGo, if_neg hnem]
    | cons s2 rest2 =>
      show splitGo (joinPath (s :: s2 :: rest2)).data [] = s :: s2 :: rest2
      rw [joinPath_cons_data, splitGo_append s.data hs.2]
      simp only [List.nil_append]
      rw [splitGo_slash, if_neg hnem]
      have := ih (fun seg hseg => hsegs seg (by simp [hseg]))
      exact congrArg (fun l => (⟨s.data⟩ : String) :: l) this

theorem splitLastAux_append :
    ∀ (as : List String) (a : String),
      (splitLastAux a as).1 ++ [(splitLastAux a as).2] = a :: as := by
  intro as
  induction as with
  | nil => intro a; simp [splitLastAux]
  | cons t ts ih =>
    intro a
    simp only [splitLastAux]
    rw [List.cons_append, ih t]

theorem concat_inj {α : Type} {l1 l2 : List α} {a b : α}
    (h : l1 ++ [a] = l2 ++ [b]) : l1 = l2 ∧ a = b := by
  constructor
  · have := congrArg List.dropLast h
    simpa using this
  · have := congrArg List.getLast? h
    simpa using this

theorem joinPath_data_ne (s : String) (rest : List String)
    (hs : s.data ≠ []) (hslash : ∀ ch ∈ s.data, ch ≠ '/') :
    joinPath (s :: rest) ≠ "" ∧ joinPath (s :: rest) ≠ "/" := by
  cases rest with
  | nil =>
    constructor
    · intro h
      apply hs
      have : (joinPath [s]).data = ("" : String).data := by rw [h]
      simpa [joinPath] using this
    · intro h
      have hd : (joinPath [s]).data = ("/" : String).data := by rw [h]
      simp only [joinPath] at hd
      exact hslash '/' (by rw [hd]; simp) rfl
  | cons s2 rest2 =>
    constructor
    · intro h
      have hd : (joinPath (s :: s2 :: rest2)).data = [] := by rw [h]
      rw [joinPath_cons_data] at hd
      exact hs (List.append_eq_nil.mp hd).1
    · intro h
      have hlen : (joinPath (s :: s2 :: rest2)).data.length = 1 := by
        rw [h]
        rfl
      rw [joinPath_cons_data] at hlen
      simp only [List.length_append, List.length_cons] at hlen
      have hz : s.data.length ≠ 0 := fun hz =>
        hs (List.length_eq_zero.mp hz)
      omega

theorem removeChildAt_shell (p : List String) (n : Node) (c : String) :
    ((n.removeChildAt p c).1).name = n.name ∧
    ((n.removeChildAt p c).1).books = n.books := by
  cases p with
  | nil =>
    obtain ⟨nm, cs, bs, bc⟩ := n
    simp only [Node.removeChildAt, Node.removeChildByName]
    cases h2 : (removeNamed cs c).2 <;> simp [h2]
  | cons s rest =>
    obtain ⟨nm, cs, bs, bc⟩ := n
    simp only [Node.removeChildAt]
    cases h2 : (removeChildChildren cs s rest c).2 <;> simp [h2]

/-- C5: the root is never deleted by a path-based removal:
`Tree::removeNode` fails on the empty or root path (and on paths with
no segments), fails when the parent denoted by all but the last
segment does not resolve, and otherwise delegates to that parent's
`removeChildByName` for the last segment — and in every case the tree
afterwards still has its original root node (same name, same local
books). -/
theorem C5_removeNode_root_preserved (t : CatTree) (p : String) :
    ((p = "" ∨ p = "/" ∨ splitPath p = []) → t.removeNode p = (t, false)) ∧
    (∀ q last, splitPath p = q ++ [last] →
      ((getNodeParts q t.root = none → t.removeNode p = (t, false)) ∧
       (getNodeParts q t.root ≠ none →
         t.removeNode p = (⟨(t.root.removeChildAt q last).1⟩,
           (t.root.removeChildAt q last).2.isSome)))) ∧
    ((t.removeNode p).1.root.name = t.root.name ∧
     (t.removeNode p).1.root.books = t.root.books) := by
  have part1 : (p = "" ∨ p = "/" ∨ splitPath p = []) →
      t.removeNode p = (t, false) := by
    intro h
    by_cases hp : p = "" ∨ p = "/"
    · simp [CatTree.removeNode, hp]
    · have hsp : splitPath p = [] := by tauto
      simp [CatTree.removeNode, hp, hsp]
  have part2 : ∀ q last, splitPath p = q ++ [last] →
      ((getNodeParts q t.root = none → t.removeNode p = (t, false)) ∧
       (getNodeParts q t.root ≠ none →
         t.removeNode p = (⟨(t.root.removeChildAt q last).1⟩,
           (t.root.removeChildAt q last).2.isSome))) := by
    intro q last hql
    have hp : ¬(p = "" ∨ p = "/") := by
      rintro (rfl | rfl)
      · rw [splitPath_empty] at hql
        exact absurd hql (by simp)
      · rw [splitPath_slash] at hql
        exact absurd hql (by simp)
    cases q with
    | nil =>
      constructor
      · intro hnone
        simp [getNodeParts] at hnone
      · intro _
        rw [List.nil_append] at hql
        simp [CatTree.removeNode, hp, hql, splitLastAux, joinPath,
          splitPath_empty]
    | cons a as =>
      have hql' : splitPath p = a :: (as ++ [last]) := by simpa using hql
      have hfix : (splitLastAux a (as ++ [last])).1 = a :: as ∧
          (splitLastAux a (as ++ [last])).2 = last := by
        apply concat_inj
        rw [splitLastAux_append (as ++ [last]) a]
        simp
      have hsegs : ∀ seg ∈ (a :: as), seg.data ≠ [] ∧
          ∀ ch ∈ seg.data, ch ≠ '/' := by
        intro seg hseg
        refine splitPath_segments p seg ?_
        rw [hql']
        rcases List.mem_cons.mp hseg with rfl | hx
        · simp
        · simp [hx]
      have ha := hsegs a (by simp)
      have hjne := joinPath_data_ne a as ha.1 ha.2
      have hroundtrip : splitPath (joinPath (a :: as)) = a :: as :=
        splitPath_joinPath (a :: as) hsegs
      have hgetn : t.getNode (joinPath (a :: as)) =
          getNodeParts (a :: as) t.root := by
        simp only [CatTree.getNode, if_neg hjne.1, if_neg hjne.2,
          hroundtrip]
      constructor
      · intro hnone
        simp only [CatTree.removeNode, if_neg hp, hql']
        rw [hfix.1, hfix.2, if_neg hjne.1, hgetn, hnone]
      · intro hsome
        cases hns : getNodeParts (a :: as) t.root with
        | none => exact absurd hns hsome
        | some m =>
          simp only [CatTree.removeNode, if_neg hp, hql']
          rw [hfix.1, hfix.2, if_neg hjne.1, hgetn, hns, hroundtrip]
  refine ⟨part1, part2, ?_⟩
  rcases List.eq_nil_or_concat (splitPath p) with hnil | ⟨q, last, hql⟩
  · rw [part1 (Or.inr (Or.inr hnil))]
    exact ⟨rfl, rfl⟩
  · rw [List.concat_eq_append] at hql
    by_cases hn : getNodeParts q t.root = none
    · rw [(part2 q last hql).1 hn]
      exact ⟨rfl, rfl⟩
    · rw [(part2 q last hql).2 hn]
      exact removeChildAt_shell q t.root last

/-- Witness for C5: refusing the empty path, and delegated removal of
a direct child of the root. -/
theorem C5_witness :
    ((⟨Node.mk "R" [Node.mk "A" [] [] 0] [] 0⟩ :
        CatTree).removeNode "" =
      (⟨Node.mk "R" [Node.mk "A" [] [] 0] [] 0⟩, false)) ∧
    ((⟨Node.mk "R" [Node.mk "A" [] [] 0] [] 0⟩ :
        CatTree).removeNode "A" =
      (⟨((⟨Node.mk "R" [Node.mk "A" [] [] 0] [] 0⟩ :
          CatTree).root.removeChildAt [] "A").1⟩,
       ((⟨Node.mk "R" [Node.mk "A" [] [] 0] [] 0⟩ :
          CatTree).root.removeChildAt [] "A").2.isSome)) :=
  ⟨(C5_removeNode_root_preserved
      ⟨Node.mk "R" [Node.mk "A" [] [] 0] [] 0⟩ "").1 (Or.inl rfl),
   ((C5_removeNode_root_preserved
      ⟨Node.mk "R" [Node.mk "A" [] [] 0] [] 0⟩ "A").2.1 [] "A"
      (by decide)).2 (by simp [getNodeParts])⟩
